import Mathlib

/-!
Shallow embedding of `src/imfilter.cpp` (bilateral image filter).

Modelling conventions:
* C `float`/`double` arithmetic is idealized as exact rational arithmetic (`ℚ`),
  following the source expressions literally.
* The C library function `exp` is abstracted as a parameter `cexp : ℚ → ℚ`;
  theorems that depend on its behaviour assume only `cexp 0 = 1` and
  `∀ t, 0 < cexp t`, both true of the real exponential.
* A C `(int)` cast of a nonnegative quotient truncates toward zero; it is
  modelled by `ratTrunc` (truncated division of numerator by denominator).
* `SimpleCanvas` (from simplecanvas.h) is a width×height image whose pixel
  data is accessed as `data[y][x][k]`; it is modelled as a total function
  `ℤ → ℤ → Fin 3 → ℤ` together with the two dimension fields.
* The `for (float xs = x1; xs <= x2; xs++)` / `for (int ys = y1; ys <= y2; ys++)`
  loops enumerate the integer grid `[x1,x2] × [y1,y2]` (x outer, y inner);
  they are modelled by the list `windowPairs`.
-/

namespace ImFilter

/-- The image type of simplecanvas.h as used by imfilter.cpp: a
width × height grid of 3-channel samples, accessed `data[y][x][k]`. -/
structure SimpleCanvas where
  width : ℤ
  height : ℤ
  data : ℤ → ℤ → Fin 3 → ℤ

/-- The `Parameters` struct of imfilter.cpp (the two file paths are pure I/O
glue and carry no information used by `filterImage`). -/
structure Parameters where
  s : ℚ
  b : ℚ
  nthreads : ℤ
  reps : ℤ

/-- C truncation toward zero of a rational, i.e. the `(int)` / `(uint8_t)`
cast applied to an exact quotient. -/
def ratTrunc (q : ℚ) : ℤ := q.num.tdiv q.den

/-- `getIntensity` from imfilter.cpp: luma-like weighting of an RGB triple. -/
def getIntensity (rgb : Fin 3 → ℚ) : ℚ :=
  0.2125 * rgb 0 + 0.7154 * rgb 1 + 0.0721 * rgb 2

/-- `getColor01` from imfilter.cpp: 8-bit channels of pixel (x, y) scaled
to [0, 1] by dividing by 255. -/
def getColor01 (imagein : SimpleCanvas) (x y : ℤ) : Fin 3 → ℚ :=
  fun k => (imagein.data y x k : ℚ) / 255

/-- `int support = (int)(s*3);` in `bilateralFilterPixel`. -/
def support (s : ℚ) : ℤ := ratTrunc (s * 3)

/-- `int x1 = (x-support > 0) ? x-support : 0;` -/
def windowX1 (x : ℤ) (s : ℚ) : ℤ :=
  if x - support s > 0 then x - support s else 0

/-- `int x2 = (x+support < imagein.width) ? x+support : imagein.width-1;` -/
def windowX2 (imagein : SimpleCanvas) (x : ℤ) (s : ℚ) : ℤ :=
  if x + support s < imagein.width then x + support s else imagein.width - 1

/-- `int y1 = (y-support > 0) ? y-support : 0;` -/
def windowY1 (y : ℤ) (s : ℚ) : ℤ :=
  if y - support s > 0 then y - support s else 0

/-- `int y2 = (y+support < imagein.height) ? y+support : imagein.height-1;` -/
def windowY2 (imagein : SimpleCanvas) (y : ℤ) (s : ℚ) : ℤ :=
  if y + support s < imagein.height then y + support s else imagein.height - 1

/-- The integers from `lo` to `hi` inclusive (empty when `hi < lo`). -/
def intRange (lo hi : ℤ) : List ℤ :=
  (List.range (hi + 1 - lo).toNat).map (fun i : ℕ => lo + (i : ℤ))

/-- The grid of coordinates `(xs, ys)` visited by the two nested window loops
of `bilateralFilterPixel` (xs outer, ys inner, both inclusive). -/
def windowPairs (imagein : SimpleCanvas) (x y : ℤ) (s : ℚ) : List (ℤ × ℤ) :=
  (intRange (windowX1 x s) (windowX2 imagein x s)).flatMap
    (fun xs => (intRange (windowY1 y s) (windowY2 imagein y s)).map
      (fun ys => (xs, ys)))

/-- The weight `w = exp(-d1-d2)` that one loop iteration of
`bilateralFilterPixel` computes for window pixel `p = (xs, ys)`,
with the source's guards `if (s > 0)` and `if (b > 0)`. -/
def weightTerm (cexp : ℚ → ℚ) (imagein : SimpleCanvas) (x y : ℤ) (s b : ℚ)
    (p : ℤ × ℤ) : ℚ :=
  let I1 := getColor01 imagein x y
  let I2 := getColor01 imagein p.1 p.2
  let d1 : ℚ :=
    if s > 0 then (((p.1 - x) * (p.1 - x) + (p.2 - y) * (p.2 - y) : ℤ) : ℚ)
      / (2 * s * s)
    else 0
  let d2 : ℚ :=
    if b > 0 then
      (getIntensity (fun k => I1 k - I2 k)) * (getIntensity (fun k => I1 k - I2 k))
        / (2 * b * b)
    else 0
  cexp (-d1 - d2)

/-- The accumulated `weights` variable of `bilateralFilterPixel` at loop exit. -/
def weights (cexp : ℚ → ℚ) (imagein : SimpleCanvas) (x y : ℤ) (s b : ℚ) : ℚ :=
  ((windowPairs imagein x y s).map (weightTerm cexp imagein x y s b)).sum

/-- The accumulated `final[k]` variable of `bilateralFilterPixel` at loop exit:
the sum of `w * I2[k]` over the window. -/
def finalColor (cexp : ℚ → ℚ) (imagein : SimpleCanvas) (x y : ℤ) (s b : ℚ)
    (k : Fin 3) : ℚ :=
  ((windowPairs imagein x y s).map
    (fun p => weightTerm cexp imagein x y s b p * getColor01 imagein p.1 p.2 k)).sum

/-- `bilateralFilterPixel` from imfilter.cpp: the output byte
`output[k] = (uint8_t)(255*final[k]/weights)` for each channel `k`
(result modelled as an integer; the range claims show it fits a byte). -/
def bilateralFilterPixel (cexp : ℚ → ℚ) (imagein : SimpleCanvas)
    (x y : ℤ) (s b : ℚ) : Fin 3 → ℤ :=
  fun k => ratTrunc (255 * finalColor cexp imagein x y s b k
    / weights cexp imagein x y s b)

/-- One repetition of the double pixel loop of `filterImage`: every coordinate
with `0 ≤ x < imagein.width`, `0 ≤ y < imagein.height` of `imageout` is set to
the bilateral-filtered pixel computed from the (frozen) `imagein`; all other
entries of `imageout` are untouched. -/
def filterStep (cexp : ℚ → ℚ) (imagein imageout : SimpleCanvas) (s b : ℚ) :
    SimpleCanvas :=
  { imageout with
    data := fun y x k =>
      if 0 ≤ x ∧ x < imagein.width ∧ 0 ≤ y ∧ y < imagein.height then
        bilateralFilterPixel cexp imagein x y s b k
      else imageout.data y x k }

/-- The copy-back loop of `filterImage`
(`imagein.data[y][x][k] = imageout.data[y][x][k]` over `imagein`'s grid). -/
def copyInto (imageout imagein : SimpleCanvas) : SimpleCanvas :=
  { imagein with
    data := fun y x k =>
      if 0 ≤ x ∧ x < imagein.width ∧ 0 ≤ y ∧ y < imagein.height then
        imageout.data y x k
      else imagein.data y x k }

/-- The mutable state `filterImage` acts on: the two image buffers, plus the
record of intermediate artifacts written via `imageout.write("rep<i>.png")`
(modelled as the list of (repetition index, image written) pairs, in order). -/
structure FilterState where
  imagein : SimpleCanvas
  imageout : SimpleCanvas
  artifacts : List (ℕ × SimpleCanvas)

/-- The `for (int rep = 0; rep < params.reps; rep++)` loop of `filterImage`:
`rep` is the current repetition index and the second argument the number of
repetitions still to run, so the source guard `rep < params.reps-1`
(not the final repetition) is `n ≠ 0` after peeling one iteration. -/
def filterLoop (cexp : ℚ → ℚ) (s b : ℚ) : ℕ → ℕ → FilterState → FilterState
  | _, 0, st => st
  | rep, Nat.succ n, st =>
    let out := filterStep cexp st.imagein st.imageout s b
    if n = 0 then { st with imageout := out }
    else
      filterLoop cexp s b (rep + 1) n
        { imagein := copyInto out st.imagein
          imageout := out
          artifacts := st.artifacts ++ [(rep, out)] }

/-- `filterImage` from imfilter.cpp: run the repetition loop (which executes
`max params.reps 0` times, since a nonpositive `reps` fails `rep < reps`
immediately) starting from the given two buffers and no artifacts written. -/
def filterImage (cexp : ℚ → ℚ) (imagein imageout : SimpleCanvas)
    (params : Parameters) : FilterState :=
  filterLoop cexp params.s params.b 0 params.reps.toNat
    ⟨imagein, imageout, []⟩

/-! ### Helper lemmas -/

theorem mem_intRange {a lo hi : ℤ} : a ∈ intRange lo hi ↔ lo ≤ a ∧ a ≤ hi := by
  unfold intRange
  constructor
  · intro h
    obtain ⟨i, hi2, rfl⟩ := List.mem_map.mp h
    have := List.mem_range.mp hi2
    omega
  · intro h
    refine List.mem_map.mpr ⟨(a - lo).toNat, List.mem_range.mpr ?_, ?_⟩ <;> omega

theorem mem_windowPairs {img : SimpleCanvas} {x y : ℤ} {s : ℚ} {p : ℤ × ℤ} :
    p ∈ windowPairs img x y s ↔
      windowX1 x s ≤ p.1 ∧ p.1 ≤ windowX2 img x s ∧
      windowY1 y s ≤ p.2 ∧ p.2 ≤ windowY2 img y s := by
  unfold windowPairs
  simp only [List.mem_flatMap, List.mem_map, mem_intRange]
  constructor
  · rintro ⟨xs, hxs, ys, hys, rfl⟩
    exact ⟨hxs.1, hxs.2, hys.1, hys.2⟩
  · rintro ⟨h1, h2, h3, h4⟩
    exact ⟨p.1, ⟨h1, h2⟩, p.2, ⟨h3, h4⟩, rfl⟩

theorem ratTrunc_nonneg {q : ℚ} (h : 0 ≤ q) : 0 ≤ ratTrunc q :=
  Int.tdiv_nonneg (Rat.num_nonneg.mpr h) (Int.ofNat_nonneg _)

theorem ratTrunc_cast_le_self {q : ℚ} (h : 0 ≤ q) : (ratTrunc q : ℚ) ≤ q := by
  have hfloor : ratTrunc q = ⌊q⌋ := by
    rw [ratTrunc, Int.tdiv_eq_ediv (Rat.num_nonneg.mpr h) (Int.ofNat_nonneg _),
      Rat.floor_def]
  rw [hfloor]
  exact Int.floor_le q

theorem ratTrunc_intCast (n : ℤ) : ratTrunc (n : ℚ) = n := by
  simp [ratTrunc, Rat.num_intCast, Rat.den_intCast]

theorem support_nonneg {s : ℚ} (hs : 0 ≤ s) : 0 ≤ support s :=
  ratTrunc_nonneg (by positivity)

theorem window_x_bounds (img : SimpleCanvas) (x : ℤ) (s : ℚ) (hs : 0 ≤ s)
    (hx0 : 0 ≤ x) (hxw : x < img.width) :
    0 ≤ windowX1 x s ∧ windowX1 x s ≤ x ∧ x ≤ windowX2 img x s ∧
      windowX2 img x s ≤ img.width - 1 := by
  have hsup := support_nonneg hs
  unfold windowX1 windowX2
  split_ifs <;> omega

theorem window_y_bounds (img : SimpleCanvas) (y : ℤ) (s : ℚ) (hs : 0 ≤ s)
    (hy0 : 0 ≤ y) (hyh : y < img.height) :
    0 ≤ windowY1 y s ∧ windowY1 y s ≤ y ∧ y ≤ windowY2 img y s ∧
      windowY2 img y s ≤ img.height - 1 := by
  have hsup := support_nonneg hs
  unfold windowY1 windowY2
  split_ifs <;> omega

theorem target_mem_windowPairs {img : SimpleCanvas} {x y : ℤ} {s : ℚ}
    (hs : 0 ≤ s) (hx0 : 0 ≤ x) (hxw : x < img.width)
    (hy0 : 0 ≤ y) (hyh : y < img.height) :
    (x, y) ∈ windowPairs img x y s := by
  have hx := window_x_bounds img x s hs hx0 hxw
  have hy := window_y_bounds img y s hs hy0 hyh
  exact mem_windowPairs.mpr ⟨hx.2.1, hx.2.2.1, hy.2.1, hy.2.2.1⟩

theorem weightTerm_self (cexp : ℚ → ℚ) (img : SimpleCanvas) (x y : ℤ)
    (s b : ℚ) : weightTerm cexp img x y s b (x, y) = cexp 0 := by
  unfold weightTerm getIntensity
  simp

theorem weights_ge_one {cexp : ℚ → ℚ} {img : SimpleCanvas} {x y : ℤ}
    {s b : ℚ} (hE0 : cexp 0 = 1) (hEpos : ∀ t, 0 < cexp t) (hs : 0 ≤ s)
    (hx0 : 0 ≤ x) (hxw : x < img.width) (hy0 : 0 ≤ y) (hyh : y < img.height) :
    1 ≤ weights cexp img x y s b := by
  have hmem := target_mem_windowPairs hs hx0 hxw hy0 hyh
  have h1 : weightTerm cexp img x y s b (x, y) = 1 :=
    (weightTerm_self cexp img x y s b).trans hE0
  have hnn : ∀ t ∈ (windowPairs img x y s).map (weightTerm cexp img x y s b),
      0 ≤ t := by
    intro t ht
    obtain ⟨p, _, rfl⟩ := List.mem_map.mp ht
    exact (hEpos _).le
  have := List.single_le_sum hnn _
    (List.mem_map_of_mem (weightTerm cexp img x y s b) hmem)
  rwa [h1] at this

theorem weights_pos {cexp : ℚ → ℚ} {img : SimpleCanvas} {x y : ℤ}
    {s b : ℚ} (hE0 : cexp 0 = 1) (hEpos : ∀ t, 0 < cexp t) (hs : 0 ≤ s)
    (hx0 : 0 ≤ x) (hxw : x < img.width) (hy0 : 0 ≤ y) (hyh : y < img.height) :
    0 < weights cexp img x y s b :=
  lt_of_lt_of_le one_pos (weights_ge_one hE0 hEpos hs hx0 hxw hy0 hyh)

theorem intRange_self (z : ℤ) : intRange z z = [z] := by
  unfold intRange
  have h1 : z + 1 - z = 1 := by omega
  rw [h1]
  simp [List.range_succ]

theorem windowPairs_singleton {img : SimpleCanvas} {x y : ℤ} {s : ℚ}
    (hx1 : windowX1 x s = x) (hx2 : windowX2 img x s = x)
    (hy1 : windowY1 y s = y) (hy2 : windowY2 img y s = y) :
    windowPairs img x y s = [(x, y)] := by
  unfold windowPairs
  rw [hx1, hx2, hy1, hy2, intRange_self, intRange_self]
  simp

theorem bilateralFilterPixel_singleton (b : ℚ) {cexp : ℚ → ℚ}
    {img : SimpleCanvas} {x y : ℤ} {s : ℚ} (hE0 : cexp 0 = 1)
    (hwin : windowPairs img x y s = [(x, y)]) :
    weights cexp img x y s b = 1 ∧
    ∀ k, bilateralFilterPixel cexp img x y s b k = img.data y x k := by
  have hw : weights cexp img x y s b = 1 := by
    unfold weights
    rw [hwin]
    simp [weightTerm_self, hE0]
  refine ⟨hw, fun k => ?_⟩
  unfold bilateralFilterPixel finalColor
  rw [hwin, hw]
  simp only [List.map_cons, List.map_nil, List.sum_cons, List.sum_nil,
    weightTerm_self, hE0, one_mul, add_zero, div_one]
  have h2 : (255 : ℚ) * getColor01 img x y k = (img.data y x k : ℚ) := by
    unfold getColor01
    field_simp
  rw [h2, ratTrunc_intCast]

theorem bilateralFilterPixel_uniform {cexp : ℚ → ℚ} {img : SimpleCanvas}
    {x y : ℤ} {s b : ℚ} {c : ℤ} (hE0 : cexp 0 = 1) (hEpos : ∀ t, 0 < cexp t)
    (hs : 0 ≤ s) (hx0 : 0 ≤ x) (hxw : x < img.width) (hy0 : 0 ≤ y)
    (hyh : y < img.height)
    (hdata : ∀ p ∈ windowPairs img x y s, ∀ k, img.data p.2 p.1 k = c) :
    ∀ k, bilateralFilterPixel cexp img x y s b k = c := by
  intro k
  have hW : 0 < weights cexp img x y s b :=
    weights_pos hE0 hEpos hs hx0 hxw hy0 hyh
  have hF : finalColor cexp img x y s b k
      = weights cexp img x y s b * ((c : ℚ) / 255) := by
    unfold finalColor
    have hcongr : (windowPairs img x y s).map
        (fun p => weightTerm cexp img x y s b p * getColor01 img p.1 p.2 k)
        = (windowPairs img x y s).map
          (fun p => weightTerm cexp img x y s b p * ((c : ℚ) / 255)) :=
      List.map_congr_left (fun p hp => by rw [getColor01, hdata p hp k])
    rw [hcongr, List.sum_map_mul_right]
    rfl
  unfold bilateralFilterPixel
  rw [hF]
  have hval : 255 * (weights cexp img x y s b * ((c : ℚ) / 255))
      / weights cexp img x y s b = (c : ℚ) := by
    field_simp
  rw [hval, ratTrunc_intCast]

theorem weightTerm_pos {cexp : ℚ → ℚ} (hEpos : ∀ t, 0 < cexp t)
    (img : SimpleCanvas) (x y : ℤ) (s b : ℚ) (p : ℤ × ℤ) :
    0 < weightTerm cexp img x y s b p := by
  unfold weightTerm
  exact hEpos _

/-! ### Claim theorems -/

/-- C1: for every in-bounds target coordinate (x, y) and sigmas s ≥ 0 and
b ≥ 0, the clipped window computed by `bilateralFilterPixel` contains the
target pixel itself, whose weight is exp 0 = 1, so the accumulated weight sum
is at least 1 and in particular nonzero: the division by the weight sum in the
final quantization step never divides by zero. -/
theorem bilateral_weight_sum_ge_one (cexp : ℚ → ℚ) (img : SimpleCanvas)
    (x y : ℤ) (s b : ℚ) (hE0 : cexp 0 = 1) (hEpos : ∀ t, 0 < cexp t)
    (hs : 0 ≤ s) (hb : 0 ≤ b) (hx0 : 0 ≤ x) (hxw : x < img.width)
    (hy0 : 0 ≤ y) (hyh : y < img.height) :
    (x, y) ∈ windowPairs img x y s ∧
    weightTerm cexp img x y s b (x, y) = 1 ∧
    1 ≤ weights cexp img x y s b ∧
    weights cexp img x y s b ≠ 0 :=
  ⟨target_mem_windowPairs hs hx0 hxw hy0 hyh,
    (weightTerm_self cexp img x y s b).trans hE0,
    weights_ge_one hE0 hEpos hs hx0 hxw hy0 hyh,
    (weights_pos hE0 hEpos hs hx0 hxw hy0 hyh).ne'⟩

theorem bilateral_weight_sum_ge_one_witness :
    ((1 : ℤ), (0 : ℤ)) ∈ windowPairs ⟨2, 2, fun _ _ _ => 0⟩ 1 0 1 ∧
    weightTerm (fun _ => 1) ⟨2, 2, fun _ _ _ => 0⟩ 1 0 1 1 (1, 0) = 1 ∧
    1 ≤ weights (fun _ => 1) ⟨2, 2, fun _ _ _ => 0⟩ 1 0 1 1 ∧
    weights (fun _ => 1) ⟨2, 2, fun _ _ _ => 0⟩ 1 0 1 1 ≠ 0 :=
  bilateral_weight_sum_ge_one (fun _ => 1) ⟨2, 2, fun _ _ _ => 0⟩ 1 0 1 1 rfl
    (fun _ => one_pos) (by norm_num) (by norm_num)
    (by norm_num : (0 : ℤ) ≤ 1) (by norm_num : (1 : ℤ) < 2)
    (le_refl 0) (by norm_num : (0 : ℤ) < 2)

/-- C2: for every in-bounds target coordinate (x, y) and s ≥ 0, every
coordinate pair (xs, ys) enumerated by the window loops of
`bilateralFilterPixel` satisfies 0 ≤ xs ≤ width-1 and 0 ≤ ys ≤ height-1:
the window is clipped to the image bounds, so only in-bounds pixels are read
and contribute to the sums. -/
theorem bilateral_window_in_bounds (img : SimpleCanvas) (x y : ℤ) (s : ℚ)
    (hs : 0 ≤ s) (hx0 : 0 ≤ x) (hxw : x < img.width) (hy0 : 0 ≤ y)
    (hyh : y < img.height) :
    ∀ p ∈ windowPairs img x y s,
      0 ≤ p.1 ∧ p.1 ≤ img.width - 1 ∧ 0 ≤ p.2 ∧ p.2 ≤ img.height - 1 := by
  intro p hp
  obtain ⟨h1, h2, h3, h4⟩ := mem_windowPairs.mp hp
  have hx := window_x_bounds img x s hs hx0 hxw
  have hy := window_y_bounds img y s hs hy0 hyh
  omega

theorem bilateral_window_in_bounds_witness :
    0 ≤ ((1 : ℤ), (1 : ℤ)).1 ∧
    ((1 : ℤ), (1 : ℤ)).1 ≤ (⟨2, 2, fun _ _ _ => 0⟩ : SimpleCanvas).width - 1 ∧
    0 ≤ ((1 : ℤ), (1 : ℤ)).2 ∧
    ((1 : ℤ), (1 : ℤ)).2 ≤ (⟨2, 2, fun _ _ _ => 0⟩ : SimpleCanvas).height - 1 :=
  bilateral_window_in_bounds ⟨2, 2, fun _ _ _ => 0⟩ 0 0 5 (by norm_num)
    (le_refl 0) (by norm_num : (0 : ℤ) < 2) (le_refl 0)
    (by norm_num : (0 : ℤ) < 2) (1, 1) (by
      refine mem_windowPairs.mpr ?_
      have hsup : support 5 = 15 := by
        unfold support ratTrunc
        norm_num
      unfold windowX1 windowX2 windowY1 windowY2
      rw [hsup]
      norm_num)

/-- C4: for s = 0 and b = 0 the support is floor (3·0) = 0, the clipped
window reduces to the single target pixel, every window weight equals
exp 0 = 1 (no attenuation is applied), and `bilateralFilterPixel` computes
the plain unweighted average of the clipped window, i.e. reproduces the
target pixel. -/
theorem bilateral_zero_sigma_average (cexp : ℚ → ℚ) (img : SimpleCanvas)
    (x y : ℤ) (hE0 : cexp 0 = 1) (hx0 : 0 ≤ x) (hxw : x < img.width)
    (hy0 : 0 ≤ y) (hyh : y < img.height) :
    support 0 = 0 ∧
    windowPairs img x y 0 = [(x, y)] ∧
    (∀ p ∈ windowPairs img x y 0, weightTerm cexp img x y 0 0 p = 1) ∧
    weights cexp img x y 0 0 = 1 ∧
    ∀ k, bilateralFilterPixel cexp img x y 0 0 k = img.data y x k := by
  have hsup : support (0 : ℚ) = 0 := by
    unfold support ratTrunc
    norm_num
  have hx1 : windowX1 x 0 = x := by
    unfold windowX1
    rw [hsup]
    split_ifs <;> omega
  have hx2 : windowX2 img x 0 = x := by
    unfold windowX2
    rw [hsup]
    split_ifs <;> omega
  have hy1 : windowY1 y 0 = y := by
    unfold windowY1
    rw [hsup]
    split_ifs <;> omega
  have hy2 : windowY2 img y 0 = y := by
    unfold windowY2
    rw [hsup]
    split_ifs <;> omega
  have hwin := windowPairs_singleton hx1 hx2 hy1 hy2
  obtain ⟨hwt, hout⟩ := bilateralFilterPixel_singleton 0 hE0 hwin
  refine ⟨hsup, hwin, ?_, hwt, hout⟩
  intro p hp
  rw [hwin, List.mem_singleton] at hp
  rw [hp, weightTerm_self, hE0]

theorem bilateral_zero_sigma_average_witness :
    support 0 = 0 ∧
    windowPairs ⟨3, 3, fun _ _ _ => 100⟩ 1 2 0 = [(1, 2)] ∧
    weights (fun _ => 1) ⟨3, 3, fun _ _ _ => 100⟩ 1 2 0 0 = 1 ∧
    bilateralFilterPixel (fun _ => 1) ⟨3, 3, fun _ _ _ => 100⟩ 1 2 0 0 0
      = (⟨3, 3, fun _ _ _ => 100⟩ : SimpleCanvas).data 2 1 0 :=
  ⟨(bilateral_zero_sigma_average (fun _ => 1) ⟨3, 3, fun _ _ _ => 100⟩ 1 2 rfl
      (by norm_num : (0 : ℤ) ≤ 1) (by norm_num : (1 : ℤ) < 3)
      (by norm_num : (0 : ℤ) ≤ 2) (by norm_num : (2 : ℤ) < 3)).1,
   (bilateral_zero_sigma_average (fun _ => 1) ⟨3, 3, fun _ _ _ => 100⟩ 1 2 rfl
      (by norm_num : (0 : ℤ) ≤ 1) (by norm_num : (1 : ℤ) < 3)
      (by norm_num : (0 : ℤ) ≤ 2) (by norm_num : (2 : ℤ) < 3)).2.1,
   (bilateral_zero_sigma_average (fun _ => 1) ⟨3, 3, fun _ _ _ => 100⟩ 1 2 rfl
      (by norm_num : (0 : ℤ) ≤ 1) (by norm_num : (1 : ℤ) < 3)
      (by norm_num : (0 : ℤ) ≤ 2) (by norm_num : (2 : ℤ) < 3)).2.2.2.1,
   (bilateral_zero_sigma_average (fun _ => 1) ⟨3, 3, fun _ _ _ => 100⟩ 1 2 rfl
      (by norm_num : (0 : ℤ) ≤ 1) (by norm_num : (1 : ℤ) < 3)
      (by norm_num : (0 : ℤ) ≤ 2) (by norm_num : (2 : ℤ) < 3)).2.2.2.2 0⟩

/-- C5: for a 1×1 input image and any s ≥ 0, b ≥ 0, the window of
`bilateralFilterPixel` at the unique pixel (0, 0) contains only that pixel,
the weight sum equals that single contribution exp 0 = 1, and the output
equals the input pixel exactly in all three channels. -/
theorem bilateral_one_by_one_identity (cexp : ℚ → ℚ) (img : SimpleCanvas)
    (s b : ℚ) (hE0 : cexp 0 = 1) (hw : img.width = 1) (hh : img.height = 1)
    (hs : 0 ≤ s) (hb : 0 ≤ b) :
    windowPairs img 0 0 s = [(0, 0)] ∧
    weights cexp img 0 0 s b = 1 ∧
    ∀ k, bilateralFilterPixel cexp img 0 0 s b k = img.data 0 0 k := by
  have hsup := support_nonneg hs
  have hx1 : windowX1 0 s = 0 := by
    unfold windowX1
    split_ifs <;> omega
  have hx2 : windowX2 img 0 s = 0 := by
    unfold windowX2
    rw [hw]
    split_ifs <;> omega
  have hy1 : windowY1 0 s = 0 := by
    unfold windowY1
    split_ifs <;> omega
  have hy2 : windowY2 img 0 s = 0 := by
    unfold windowY2
    rw [hh]
    split_ifs <;> omega
  have hwin := windowPairs_singleton hx1 hx2 hy1 hy2
  obtain ⟨hwt, hout⟩ := bilateralFilterPixel_singleton b hE0 hwin
  exact ⟨hwin, hwt, hout⟩

theorem bilateral_one_by_one_identity_witness :
    windowPairs ⟨1, 1, fun _ _ _ => 42⟩ 0 0 2 = [(0, 0)] ∧
    weights (fun _ => 1) ⟨1, 1, fun _ _ _ => 42⟩ 0 0 2 3 = 1 ∧
    bilateralFilterPixel (fun _ => 1) ⟨1, 1, fun _ _ _ => 42⟩ 0 0 2 3 1
      = (⟨1, 1, fun _ _ _ => 42⟩ : SimpleCanvas).data 0 0 1 :=
  ⟨(bilateral_one_by_one_identity (fun _ => 1) ⟨1, 1, fun _ _ _ => 42⟩ 2 3 rfl
      rfl rfl (by norm_num) (by norm_num)).1,
   (bilateral_one_by_one_identity (fun _ => 1) ⟨1, 1, fun _ _ _ => 42⟩ 2 3 rfl
      rfl rfl (by norm_num) (by norm_num)).2.1,
   (bilateral_one_by_one_identity (fun _ => 1) ⟨1, 1, fun _ _ _ => 42⟩ 2 3 rfl
      rfl rfl (by norm_num) (by norm_num)).2.2 1⟩

/-- C3: for reps = 2, the intermediate artifact written by `filterImage` is
the first repetition's output, the final output is the filter applied to the
copied-back buffers, and the input buffer used by the second repetition
(`copyInto` of the first output into `imagein`) agrees with the first
repetition's output at every in-bounds pixel. -/
theorem filter_two_reps_chained (cexp : ℚ → ℚ) (imgin imgout : SimpleCanvas)
    (params : Parameters) (h2 : params.reps = 2) :
    (filterImage cexp imgin imgout params).artifacts
      = [(0, filterStep cexp imgin imgout params.s params.b)] ∧
    (filterImage cexp imgin imgout params).imageout
      = filterStep cexp
          (copyInto (filterStep cexp imgin imgout params.s params.b) imgin)
          (filterStep cexp imgin imgout params.s params.b)
          params.s params.b ∧
    ∀ x y : ℤ, 0 ≤ x → x < imgin.width → 0 ≤ y → y < imgin.height → ∀ k,
      (copyInto (filterStep cexp imgin imgout params.s params.b) imgin).data
          y x k
        = (filterStep cexp imgin imgout params.s params.b).data y x k := by
  have htN : params.reps.toNat = 2 := by rw [h2]; rfl
  unfold filterImage
  rw [htN]
  refine ⟨rfl, rfl, ?_⟩
  intro x y hx0 hxw hy0 hyh k
  simp only [copyInto]
  rw [if_pos ⟨hx0, hxw, hy0, hyh⟩]

theorem filter_two_reps_chained_witness :
    (filterImage (fun _ => 1) ⟨1, 1, fun _ _ _ => 7⟩ ⟨1, 1, fun _ _ _ => 7⟩
        ⟨0, 0, 1, 2⟩).artifacts
      = [(0, filterStep (fun _ => 1) ⟨1, 1, fun _ _ _ => 7⟩
            ⟨1, 1, fun _ _ _ => 7⟩ 0 0)] ∧
    (filterImage (fun _ => 1) ⟨1, 1, fun _ _ _ => 7⟩ ⟨1, 1, fun _ _ _ => 7⟩
        ⟨0, 0, 1, 2⟩).imageout
      = filterStep (fun _ => 1)
          (copyInto (filterStep (fun _ => 1) ⟨1, 1, fun _ _ _ => 7⟩
              ⟨1, 1, fun _ _ _ => 7⟩ 0 0) ⟨1, 1, fun _ _ _ => 7⟩)
          (filterStep (fun _ => 1) ⟨1, 1, fun _ _ _ => 7⟩
            ⟨1, 1, fun _ _ _ => 7⟩ 0 0) 0 0 ∧
    (copyInto (filterStep (fun _ => 1) ⟨1, 1, fun _ _ _ => 7⟩
        ⟨1, 1, fun _ _ _ => 7⟩ 0 0) ⟨1, 1, fun _ _ _ => 7⟩).data 0 0 0
      = (filterStep (fun _ => 1) ⟨1, 1, fun _ _ _ => 7⟩
          ⟨1, 1, fun _ _ _ => 7⟩ 0 0).data 0 0 0 :=
  ⟨(filter_two_reps_chained (fun _ => 1) ⟨1, 1, fun _ _ _ => 7⟩
      ⟨1, 1, fun _ _ _ => 7⟩ ⟨0, 0, 1, 2⟩ rfl).1,
   (filter_two_reps_chained (fun _ => 1) ⟨1, 1, fun _ _ _ => 7⟩
      ⟨1, 1, fun _ _ _ => 7⟩ ⟨0, 0, 1, 2⟩ rfl).2.1,
   (filter_two_reps_chained (fun _ => 1) ⟨1, 1, fun _ _ _ => 7⟩
      ⟨1, 1, fun _ _ _ => 7⟩ ⟨0, 0, 1, 2⟩ rfl).2.2 0 0 (le_refl 0)
      (by norm_num : (0 : ℤ) < 1) (le_refl 0) (by norm_num : (0 : ℤ) < 1) 0⟩

/-- C6: a 4×4 all-white image (every channel 255) is an exact fixed point of
`filterImage` with s = 1, b = 1, reps = 1: every in-bounds pixel of the
output image is (255, 255, 255). -/
theorem filter_white_fixed_point (cexp : ℚ → ℚ) (imgin imgout : SimpleCanvas)
    (n : ℤ) (hE0 : cexp 0 = 1) (hEpos : ∀ t, 0 < cexp t)
    (hw : imgin.width = 4) (hh : imgin.height = 4)
    (hdata : ∀ x y : ℤ, 0 ≤ x → x < 4 → 0 ≤ y → y < 4 → ∀ k,
      imgin.data y x k = 255) :
    ∀ x y : ℤ, 0 ≤ x → x < 4 → 0 ≤ y → y < 4 → ∀ k,
      (filterImage cexp imgin imgout ⟨1, 1, n, 1⟩).imageout.data y x k
        = 255 := by
  intro x y hx0 hx4 hy0 hy4 k
  have hres : (filterImage cexp imgin imgout ⟨1, 1, n, 1⟩).imageout
      = filterStep cexp imgin imgout 1 1 := rfl
  rw [hres]
  have hxw : x < imgin.width := by omega
  have hyh : y < imgin.height := by omega
  have hstep : (filterStep cexp imgin imgout 1 1).data y x k
      = bilateralFilterPixel cexp imgin x y 1 1 k := by
    simp only [filterStep]
    rw [if_pos ⟨hx0, hxw, hy0, hyh⟩]
  rw [hstep]
  refine bilateralFilterPixel_uniform hE0 hEpos (by norm_num) hx0 hxw hy0 hyh
    ?_ k
  intro p hp k'
  obtain ⟨h1, h2, h3, h4⟩ := mem_windowPairs.mp hp
  have hxb := window_x_bounds imgin x 1 (by norm_num) hx0 hxw
  have hyb := window_y_bounds imgin y 1 (by norm_num) hy0 hyh
  exact hdata p.1 p.2 (by omega) (by omega) (by omega) (by omega) k'

theorem filter_white_fixed_point_witness :
    (filterImage (fun _ => 1) ⟨4, 4, fun _ _ _ => 255⟩
        ⟨4, 4, fun _ _ _ => 255⟩ ⟨1, 1, 1, 1⟩).imageout.data 0 0 0 = 255 :=
  filter_white_fixed_point (fun _ => 1) ⟨4, 4, fun _ _ _ => 255⟩
    ⟨4, 4, fun _ _ _ => 255⟩ 1 rfl (fun _ => one_pos) rfl rfl
    (fun _ _ _ _ _ _ _ => rfl) 0 0 (le_refl 0) (by norm_num)
    (le_refl 0) (by norm_num) 0

/-- C7: for every input image whose channel samples lie in [0, 255], every
in-bounds target and sigmas s ≥ 0, b ≥ 0, each output channel produced by
`bilateralFilterPixel` lies in [0, 255]: the quantized value is a weighted
average of values in [0, 255] with nonnegative weights. -/
theorem bilateral_output_in_byte_range (cexp : ℚ → ℚ) (img : SimpleCanvas)
    (x y : ℤ) (s b : ℚ) (hE0 : cexp 0 = 1) (hEpos : ∀ t, 0 < cexp t)
    (hs : 0 ≤ s) (hb : 0 ≤ b) (hx0 : 0 ≤ x) (hxw : x < img.width)
    (hy0 : 0 ≤ y) (hyh : y < img.height)
    (hdata : ∀ x' y' : ℤ, 0 ≤ x' → x' < img.width → 0 ≤ y' →
      y' < img.height → ∀ k, 0 ≤ img.data y' x' k ∧ img.data y' x' k ≤ 255) :
    ∀ k, 0 ≤ bilateralFilterPixel cexp img x y s b k ∧
      bilateralFilterPixel cexp img x y s b k ≤ 255 := by
  intro k
  have hW : 0 < weights cexp img x y s b :=
    weights_pos hE0 hEpos hs hx0 hxw hy0 hyh
  have hwin : ∀ p ∈ windowPairs img x y s,
      0 ≤ getColor01 img p.1 p.2 k ∧ getColor01 img p.1 p.2 k ≤ 1 := by
    intro p hp
    obtain ⟨h1, h2, h3, h4⟩ := mem_windowPairs.mp hp
    have hxb := window_x_bounds img x s hs hx0 hxw
    have hyb := window_y_bounds img y s hs hy0 hyh
    have hd := hdata p.1 p.2 (by omega) (by omega) (by omega) (by omega) k
    unfold getColor01
    constructor
    · exact div_nonneg (by exact_mod_cast hd.1) (by norm_num)
    · rw [div_le_one (by norm_num)]
      exact_mod_cast hd.2
  have hF0 : 0 ≤ finalColor cexp img x y s b k := by
    apply List.sum_nonneg
    intro t ht
    obtain ⟨p, hp, rfl⟩ := List.mem_map.mp ht
    exact mul_nonneg (weightTerm_pos hEpos img x y s b p).le (hwin p hp).1
  have hFW : finalColor cexp img x y s b k ≤ weights cexp img x y s b := by
    unfold finalColor weights
    apply List.sum_le_sum
    intro p hp
    calc weightTerm cexp img x y s b p * getColor01 img p.1 p.2 k
        ≤ weightTerm cexp img x y s b p * 1 :=
          mul_le_mul_of_nonneg_left (hwin p hp).2
            (weightTerm_pos hEpos img x y s b p).le
      _ = weightTerm cexp img x y s b p := mul_one _
  have hq0 : 0 ≤ 255 * finalColor cexp img x y s b k
      / weights cexp img x y s b :=
    div_nonneg (by positivity) hW.le
  have hq255 : 255 * finalColor cexp img x y s b k
      / weights cexp img x y s b ≤ 255 := by
    rw [div_le_iff₀ hW]
    calc 255 * finalColor cexp img x y s b k
        ≤ 255 * weights cexp img x y s b :=
          mul_le_mul_of_nonneg_left hFW (by norm_num)
      _ = 255 * weights cexp img x y s b := rfl
  unfold bilateralFilterPixel
  refine ⟨ratTrunc_nonneg hq0, ?_⟩
  have hle : (ratTrunc (255 * finalColor cexp img x y s b k
      / weights cexp img x y s b) : ℚ) ≤ 255 :=
    le_trans (ratTrunc_cast_le_self hq0) hq255
  exact_mod_cast hle

theorem bilateral_output_in_byte_range_witness :
    0 ≤ bilateralFilterPixel (fun _ => 1) ⟨1, 1, fun _ _ _ => 0⟩ 0 0 0 0 0 ∧
    bilateralFilterPixel (fun _ => 1) ⟨1, 1, fun _ _ _ => 0⟩ 0 0 0 0 0
      ≤ 255 :=
  bilateral_output_in_byte_range (fun _ => 1) ⟨1, 1, fun _ _ _ => 0⟩ 0 0 0 0
    rfl (fun _ => one_pos) (le_refl 0) (le_refl 0) (le_refl 0)
    (by norm_num : (0 : ℤ) < 1) (le_refl 0) (by norm_num : (0 : ℤ) < 1)
    (fun _ _ _ _ _ _ _ => ⟨le_refl 0, by norm_num⟩) 0

/-- C8: the result of `filterImage` is identical for any two values of the
nthreads parameter, all other parameters and the two image buffers equal:
the filtering driver never reads the worker-count field. -/
theorem filter_nthreads_independent (cexp : ℚ → ℚ)
    (imgin imgout : SimpleCanvas) (s b : ℚ) (reps n1 n2 : ℤ) :
    filterImage cexp imgin imgout ⟨s, b, n1, reps⟩
      = filterImage cexp imgin imgout ⟨s, b, n2, reps⟩ := rfl

/-- C9: for reps = 1 the copy-back into `imagein` never runs, so after
`filterImage` the input buffer is exactly the image it held before the call. -/
theorem filter_single_rep_preserves_input (cexp : ℚ → ℚ)
    (imgin imgout : SimpleCanvas) (params : Parameters)
    (h1 : params.reps = 1) :
    (filterImage cexp imgin imgout params).imagein = imgin := by
  have htN : params.reps.toNat = 1 := by rw [h1]; rfl
  unfold filterImage
  rw [htN]
  rfl

theorem filter_single_rep_preserves_input_witness :
    (filterImage (fun _ => 1) ⟨1, 1, fun _ _ _ => 9⟩ ⟨1, 1, fun _ _ _ => 9⟩
        ⟨0, 0, 4, 1⟩).imagein = ⟨1, 1, fun _ _ _ => 9⟩ :=
  filter_single_rep_preserves_input (fun _ => 1) ⟨1, 1, fun _ _ _ => 9⟩
    ⟨1, 1, fun _ _ _ => 9⟩ ⟨0, 0, 4, 1⟩ rfl

/-- C10: for reps ≤ 0 the repetition loop of `filterImage` never executes:
both buffers are returned unchanged and no intermediate artifact is
written. -/
theorem filter_nonpositive_reps_noop (cexp : ℚ → ℚ)
    (imgin imgout : SimpleCanvas) (params : Parameters)
    (h0 : params.reps ≤ 0) :
    filterImage cexp imgin imgout params = ⟨imgin, imgout, []⟩ := by
  unfold filterImage
  rw [Int.toNat_of_nonpos h0]
  rfl

theorem filter_nonpositive_reps_noop_witness :
    filterImage (fun _ => 1) ⟨1, 1, fun _ _ _ => 3⟩ ⟨1, 1, fun _ _ _ => 5⟩
        ⟨0, 0, 1, -3⟩
      = ⟨⟨1, 1, fun _ _ _ => 3⟩, ⟨1, 1, fun _ _ _ => 5⟩, []⟩ :=
  filter_nonpositive_reps_noop (fun _ => 1) ⟨1, 1, fun _ _ _ => 3⟩
    ⟨1, 1, fun _ _ _ => 5⟩ ⟨0, 0, 1, -3⟩ (by norm_num : (-3 : ℤ) ≤ 0)

end ImFilter
